import Mathlib

/-!
# Verification of the unimod-mapper indexing and reconciliation core

Shallow embedding of `unimod_mapper/unimod_mapper.py`. Reference records
(`ModRecord`) mirror the dicts built by `_parseXML`; the multi-key index
(`Mapper`, an insertion-ordered association list mirroring the Python dict
`mapper`) is built by `initialize_mapper`, mirroring `_initialize_mapper`.
Python floats are modelled as exact rationals (`Rat`); Python dicts keyed
by heterogeneous values (strings and floats) are modelled with the tagged
key type `MKey`, since in Python a string key and a float key never compare
equal while two string keys from different axes may collide.
-/

namespace UnimodMapper

/-- A reference record, as produced by `_parseXML` for one `mod` element:
`unimodID` (attribute `record_id`, `""` when missing), `unimodname`
(attribute `title`), `element` (symbol/count pairs in document order,
zero counts dropped at parse time), `specificity` ((site, classification)
pairs with `Artefact` entries dropped) and `mono_mass`. -/
structure ModRecord where
  unimodID : String
  unimodname : String
  element : List (String × Int)
  specificity : List (String × String)
  mono_mass : Rat
  deriving DecidableEq, Repr

instance : Inhabited ModRecord := ⟨⟨"", "", [], [], 0⟩⟩

/-- A key of the Python `mapper` dict: either a string (name, id string, or
canonical composition string) or a float (mono-isotopic mass). -/
inductive MKey where
  | str (s : String)
  | num (q : Rat)
  deriving DecidableEq, Repr

/-- The Python `mapper` dict: insertion-ordered association list from keys
to lists of record positions. -/
abbrev Mapper := List (MKey × List Nat)

/-- `mapper.get(k, None)`: first entry with the given key. -/
def mget : Mapper → MKey → Option (List Nat)
  | [], _ => none
  | (k', v) :: rest, k => if k' = k then some v else mget rest k

/-- `mapper[k].append(i)`, creating `mapper[k] = []` first when the key is
absent (the `if ... not in mapper.keys()` branch of `_initialize_mapper`). -/
def addKey : Mapper → MKey → Nat → Mapper
  | [], k, i => [(k, [i])]
  | (k', v) :: rest, k, i =>
      if k' = k then (k', v ++ [i]) :: rest else (k', v) :: addKey rest k i

/-- `dict.get` on an insertion-ordered association list of element counts. -/
def lookupPair : List (String × Int) → String → Option Int
  | [], _ => none
  | (s, n) :: rest, s' => if s = s' then some n else lookupPair rest s'

/-- `"{0}({1})".format(symbol, number)`. -/
def fmtElem (s : String) (n : Int) : String :=
  s ++ "(" ++ toString n ++ ")"

/-- Lexicographic comparison of character sequences by Unicode code point:
the order Python uses to compare strings (equivalent to Lean's `String`
order, but defined by structural recursion). -/
def charListLe : List Char → List Char → Bool
  | [], _ => true
  | _ :: _, [] => false
  | c :: cs, d :: ds =>
      if c.val.toNat < d.val.toNat then true
      else if d.val.toNat < c.val.toNat then false
      else charListLe cs ds

/-- Python's `<=` on strings. -/
def strLe (a b : String) : Bool := charListLe a.data b.data

/-- Stable insertion of a pair into a list sorted by symbol; together with
`sortPairs` this mirrors Python's `sorted(dict.items())` (symbols within one
record are distinct, so sorting by the first component suffices). -/
def insertPair (p : String × Int) : List (String × Int) → List (String × Int)
  | [] => [p]
  | q :: qs => if strLe p.1 q.1 then p :: q :: qs else q :: insertPair p qs

/-- `sorted(items)` by element symbol (insertion sort, stable). -/
def sortPairs : List (String × Int) → List (String × Int)
  | [] => []
  | p :: ps => insertPair p (sortPairs ps)

/-- The carbon/hydrogen-first element order used by `_initialize_mapper`. -/
def MAJORS : List String := ["C", "H"]

/-- The Hill-like canonical composition string built in
`_initialize_mapper`: `C(count)` then `H(count)` when present, then the
remaining symbols in sorted order. -/
def hillNotation (element : List (String × Int)) : String :=
  let majorPart := MAJORS.foldl
    (fun acc maj =>
      match lookupPair element maj with
      | some n => acc ++ fmtElem maj n
      | none => acc) ""
  ((sortPairs element).filter (fun p => decide (p.1 ∉ MAJORS))).foldl
    (fun acc p => acc ++ fmtElem p.1 p.2) majorPart

/-- The keys `_initialize_mapper` registers for one record, in the record
dict's iteration order (`unimodID`, `unimodname`, `element` as its
canonical composition string, `mono_mass`); `specificity` is skipped. -/
def recordKeys (r : ModRecord) : List MKey :=
  [MKey.str r.unimodID, MKey.str r.unimodname,
   MKey.str (hillNotation r.element), MKey.num r.mono_mass]

/-- One record's contribution to the mapper: append its position under each
of its keys. -/
def addRecord (m : Mapper) (i : Nat) (r : ModRecord) : Mapper :=
  (recordKeys r).foldl (fun acc k => addKey acc k i) m

/-- The `for index, unimod_data_dict in enumerate(self.data_list)` loop of
`_initialize_mapper`, with the running position made explicit. -/
def initFrom (i : Nat) (store : List ModRecord) (m : Mapper) : Mapper :=
  match store with
  | [] => m
  | r :: rs => initFrom (i + 1) rs (addRecord m i r)

/-- `_initialize_mapper`: build the multi-key index from the record store. -/
def initialize_mapper (store : List ModRecord) : Mapper :=
  initFrom 0 store []

/-- `self.data_list[index]`; the default is unreachable for indices produced
by a mapper built from `store`. -/
def recAt (store : List ModRecord) (i : Nat) : ModRecord :=
  store.getD i default

/-- Python's `min` over a non-empty list of ints (the `[]` case is
unreachable: built mappers never hold empty position lists). -/
def listMin : List Nat → Nat
  | [] => 0
  | x :: xs => xs.foldl Nat.min x

/-! ## Basic lemmas about mapper construction -/

theorem mget_addKey (m : Mapper) (k0 : MKey) (j : Nat) (k : MKey) :
    mget (addKey m k0 j) k =
      if k = k0 then some ((mget m k0).getD [] ++ [j]) else mget m k := by
  induction m with
  | nil =>
      by_cases h : k = k0
      · subst h; simp [addKey, mget]
      · have h' : ¬ (k0 = k) := fun hh => h hh.symm
        simp [addKey, mget, h, h']
  | cons e rest ih =>
      obtain ⟨k', v⟩ := e
      by_cases h1 : k' = k0
      · subst h1
        by_cases h2 : k' = k
        · subst h2; simp [addKey, mget]
        · have h2' : ¬ (k = k') := fun hh => h2 hh.symm
          simp [addKey, mget, h2, h2']
      · by_cases h2 : k' = k
        · subst h2
          simp [addKey, mget, h1]
        · simp [addKey, mget, h1, h2, ih]

/-- Elementwise invariant of a mapper: every recorded position of every key
satisfies `P`. -/
def InvP (m : Mapper) (P : MKey → Nat → Prop) : Prop :=
  ∀ k l, mget m k = some l → ∀ i ∈ l, P k i

theorem invP_addKey {m : Mapper} {P : MKey → Nat → Prop} (h : InvP m P)
    {k0 : MKey} {j : Nat} (hj : P k0 j) : InvP (addKey m k0 j) P := by
  intro k l hl i hi
  rw [mget_addKey] at hl
  by_cases hk : k = k0
  · subst hk
    rw [if_pos rfl] at hl
    cases hl
    rcases List.mem_append.mp hi with hi' | hi'
    · cases hm : mget m k with
      | none => rw [hm] at hi'; simp at hi'
      | some l0 => rw [hm] at hi'; exact h k l0 hm i hi'
    · simp at hi'; subst hi'; exact hj
  · rw [if_neg hk] at hl
    exact h k l hl i hi

theorem invP_addKeys {P : MKey × Nat → Prop} :
    ∀ (ks : List MKey) (m : Mapper) (j : Nat),
      InvP m (fun k i => P (k, i)) → (∀ k ∈ ks, P (k, j)) →
      InvP (ks.foldl (fun acc k => addKey acc k j) m) (fun k i => P (k, i)) := by
  intro ks
  induction ks with
  | nil => intro m j h _; exact h
  | cons k0 ks ih =>
      intro m j h hks
      simp only [List.foldl_cons]
      exact ih (addKey m k0 j) j
        (invP_addKey h (hks k0 (List.mem_cons_self k0 ks)))
        (fun k hk => hks k (List.mem_cons_of_mem k0 hk))

theorem invP_addRecord {m : Mapper} {P : MKey → Nat → Prop} (h : InvP m P)
    {j : Nat} {r : ModRecord} (hr : ∀ k ∈ recordKeys r, P k j) :
    InvP (addRecord m j r) P :=
  @invP_addKeys (fun p => P p.1 p.2) (recordKeys r) m j h hr

theorem invP_initFrom {P : MKey → Nat → Prop} :
    ∀ (rs : List ModRecord) (i : Nat) (m : Mapper),
      InvP m P →
      (∀ n r, rs[n]? = some r → ∀ k ∈ recordKeys r, P k (i + n)) →
      InvP (initFrom i rs m) P := by
  intro rs
  induction rs with
  | nil => intro i m h _; exact h
  | cons r rs ih =>
      intro i m h hrec
      simp only [initFrom]
      refine ih (i + 1) (addRecord m i r) ?_ ?_
      · refine invP_addRecord h ?_
        have := hrec 0 r (by simp)
        simpa using this
      · intro n r' hn k hk
        have := hrec (n + 1) r' (by simpa using hn) k hk
        have harith : i + (n + 1) = i + 1 + n := by omega
        rwa [harith] at this

/-- Soundness of the index: every position registered under a key is a valid
position of the record store, and the key is one of that record's four keys
(its id string, name, canonical composition string, or mass). -/
theorem mget_init_sound (store : List ModRecord) :
    ∀ k l, mget (initialize_mapper store) k = some l →
      ∀ i ∈ l, i < store.length ∧ k ∈ recordKeys (recAt store i) := by
  have h := @invP_initFrom (fun k i =>
      i < store.length ∧ k ∈ recordKeys (recAt store i)) store 0 []
    (by intro k l hl; simp [mget] at hl)
    (by
      intro n r hn k hk
      have hlt : n < store.length := by
        by_contra hge
        rw [List.getElem?_eq_none (by omega)] at hn
        cases hn
      have hr : recAt store n = r := by
        simp [recAt, List.getD, hn]
      constructor
      · omega
      · rw [Nat.zero_add, hr]; exact hk)
  exact h

/-- Structural invariant of a mapper: every key's list is non-empty, sorted
non-decreasingly, and bounded by `n`. -/
def SBound (m : Mapper) (n : Nat) : Prop :=
  ∀ k l, mget m k = some l →
    l ≠ [] ∧ l.Chain' (· ≤ ·) ∧ ∀ i ∈ l, i < n

theorem sbound_mono {m : Mapper} {n n' : Nat} (hnn : n ≤ n')
    (h : SBound m n) : SBound m n' := by
  intro k l hl
  obtain ⟨h1, h2, h3⟩ := h k l hl
  exact ⟨h1, h2, fun i hi => lt_of_lt_of_le (h3 i hi) hnn⟩

theorem mem_of_getLast?_eq {α : Type _} :
    ∀ {l : List α} {a : α}, l.getLast? = some a → a ∈ l := by
  intro l
  induction l with
  | nil => intro a h; cases h
  | cons x xs ih =>
      intro a h
      cases xs with
      | nil =>
          simp [List.getLast?] at h
          simp [h]
      | cons y ys =>
          rw [List.getLast?_cons_cons] at h
          exact List.mem_cons_of_mem x (ih h)

theorem chain'_append_singleton {l : List Nat} {j : Nat}
    (hc : l.Chain' (· ≤ ·)) (hle : ∀ i ∈ l, i ≤ j) :
    (l ++ [j]).Chain' (· ≤ ·) := by
  rw [List.chain'_append]
  refine ⟨hc, List.chain'_singleton j, ?_⟩
  intro x hx y hy
  simp at hy
  subst hy
  exact hle x (mem_of_getLast?_eq hx)

theorem sbound_addKey {m : Mapper} {j : Nat} (h : SBound m (j + 1))
    (k0 : MKey) : SBound (addKey m k0 j) (j + 1) := by
  intro k l hl
  rw [mget_addKey] at hl
  by_cases hk : k = k0
  · subst hk
    rw [if_pos rfl] at hl
    cases hl
    cases hm : mget m k with
    | none => simp [hm]
    | some l0 =>
        obtain ⟨_, hc, hb⟩ := h k l0 hm
        simp only [Option.getD_some]
        refine ⟨by simp, ?_, ?_⟩
        · exact chain'_append_singleton hc (fun i hi => by
            have := hb i hi; omega)
        · intro i hi
          rcases List.mem_append.mp hi with hi' | hi'
          · exact hb i hi'
          · simp at hi'; omega
  · rw [if_neg hk] at hl
    exact h k l hl

theorem sbound_addKeys {j : Nat} :
    ∀ (ks : List MKey) (m : Mapper), SBound m (j + 1) →
      SBound (ks.foldl (fun acc k => addKey acc k j) m) (j + 1) := by
  intro ks
  induction ks with
  | nil => intro m h; exact h
  | cons k0 ks ih =>
      intro m h
      simp only [List.foldl_cons]
      exact ih (addKey m k0 j) (sbound_addKey h k0)

theorem sbound_addRecord {m : Mapper} {j : Nat} (h : SBound m j)
    (r : ModRecord) : SBound (addRecord m j r) (j + 1) :=
  sbound_addKeys (recordKeys r) m (sbound_mono (Nat.le_succ j) h)

theorem sbound_initFrom :
    ∀ (rs : List ModRecord) (i : Nat) (m : Mapper),
      SBound m i → SBound (initFrom i rs m) (i + rs.length) := by
  intro rs
  induction rs with
  | nil => intro i m h; simpa using h
  | cons r rs ih =>
      intro i m h
      simp only [initFrom]
      have := ih (i + 1) (addRecord m i r) (sbound_addRecord h r)
      have harith : i + 1 + rs.length = i + (rs.length + 1) := by omega
      rw [harith] at this
      simpa using this

/-- Structural soundness of the built index: non-empty, non-decreasing,
bounded position lists. -/
theorem sbound_init (store : List ModRecord) :
    SBound (initialize_mapper store) store.length := by
  have := sbound_initFrom store 0 []
    (by intro k l hl; simp [mget] at hl)
  simpa using this

/-- A position is recorded under a key. -/
def lookupMem (m : Mapper) (k : MKey) (j : Nat) : Prop :=
  ∃ l, mget m k = some l ∧ j ∈ l

theorem lookupMem_addKey_self (m : Mapper) (k : MKey) (j : Nat) :
    lookupMem (addKey m k j) k j := by
  refine ⟨(mget m k).getD [] ++ [j], ?_, by simp⟩
  rw [mget_addKey, if_pos rfl]

theorem lookupMem_addKey_mono {m : Mapper} {k : MKey} {j : Nat}
    (h : lookupMem m k j) (k0 : MKey) (j0 : Nat) :
    lookupMem (addKey m k0 j0) k j := by
  obtain ⟨l, hl, hj⟩ := h
  by_cases hk : k = k0
  · subst hk
    refine ⟨(mget m k).getD [] ++ [j0], ?_, ?_⟩
    · rw [mget_addKey, if_pos rfl]
    · rw [hl]; exact List.mem_append.mpr (Or.inl hj)
  · exact ⟨l, by rw [mget_addKey, if_neg hk]; exact hl, hj⟩

theorem lookupMem_addKeys_mono {m : Mapper} {k : MKey} {j : Nat}
    (h : lookupMem m k j) (ks : List MKey) (j0 : Nat) :
    lookupMem (ks.foldl (fun acc k' => addKey acc k' j0) m) k j := by
  induction ks generalizing m with
  | nil => exact h
  | cons k0 ks ih =>
      simp only [List.foldl_cons]
      exact ih (lookupMem_addKey_mono h k0 j0)

theorem lookupMem_addKeys_self {k : MKey} :
    ∀ (ks : List MKey) (m : Mapper) (j : Nat), k ∈ ks →
      lookupMem (ks.foldl (fun acc k' => addKey acc k' j) m) k j := by
  intro ks
  induction ks with
  | nil => intro m j h; cases h
  | cons k0 ks ih =>
      intro m j h
      simp only [List.foldl_cons]
      rcases List.mem_cons.mp h with h' | h'
      · subst h'
        exact lookupMem_addKeys_mono (lookupMem_addKey_self m k j) ks j
      · exact ih (addKey m k0 j) j h'

theorem lookupMem_addRecord_self {m : Mapper} {j : Nat} {r : ModRecord}
    {k : MKey} (hk : k ∈ recordKeys r) : lookupMem (addRecord m j r) k j :=
  lookupMem_addKeys_self (recordKeys r) m j hk

theorem lookupMem_addRecord_mono {m : Mapper} {k : MKey} {j : Nat}
    (h : lookupMem m k j) (j0 : Nat) (r : ModRecord) :
    lookupMem (addRecord m j0 r) k j :=
  lookupMem_addKeys_mono h (recordKeys r) j0

theorem lookupMem_initFrom_mono {k : MKey} {j : Nat} :
    ∀ (rs : List ModRecord) (i : Nat) (m : Mapper),
      lookupMem m k j → lookupMem (initFrom i rs m) k j := by
  intro rs
  induction rs with
  | nil => intro i m h; exact h
  | cons r rs ih =>
      intro i m h
      exact ih (i + 1) (addRecord m i r) (lookupMem_addRecord_mono h i r)

theorem lookupMem_initFrom {k : MKey} :
    ∀ (rs : List ModRecord) (i : Nat) (m : Mapper) (n : Nat) (r : ModRecord),
      rs[n]? = some r → k ∈ recordKeys r →
      lookupMem (initFrom i rs m) k (i + n) := by
  intro rs
  induction rs with
  | nil => intro i m n r hn; cases hn
  | cons r0 rs ih =>
      intro i m n r hn hk
      cases n with
      | zero =>
          simp at hn
          subst hn
          exact lookupMem_initFrom_mono rs (i + 1) (addRecord m i r0)
            (by simpa using lookupMem_addRecord_self hk)
      | succ n' =>
          have := ih (i + 1) (addRecord m i r0) n' r (by simpa using hn) hk
          have harith : i + 1 + n' = i + (n' + 1) := by omega
          rwa [harith] at this

/-- Completeness of the index: a record's position is registered under each
of its keys. -/
theorem lookupMem_init {store : List ModRecord} {n : Nat} {r : ModRecord}
    (hn : store[n]? = some r) {k : MKey} (hk : k ∈ recordKeys r) :
    lookupMem (initialize_mapper store) k n := by
  have := lookupMem_initFrom store 0 [] n r hn hk
  simpa using this

/-! ## Lemmas about `listMin` (Python's `min` on a list) -/

theorem foldl_min_le_init : ∀ (xs : List Nat) (x : Nat),
    xs.foldl Nat.min x ≤ x := by
  intro xs
  induction xs with
  | nil => intro x; exact Nat.le_refl x
  | cons y ys ih =>
      intro x
      simp only [List.foldl_cons]
      exact Nat.le_trans (ih (Nat.min x y)) (Nat.min_le_left x y)

theorem foldl_min_le_mem : ∀ (xs : List Nat) (x j : Nat), j ∈ xs →
    xs.foldl Nat.min x ≤ j := by
  intro xs
  induction xs with
  | nil => intro x j h; cases h
  | cons y ys ih =>
      intro x j h
      simp only [List.foldl_cons]
      rcases List.mem_cons.mp h with h' | h'
      · subst h'
        exact Nat.le_trans (foldl_min_le_init ys (Nat.min x j))
          (Nat.min_le_right x j)
      · exact ih (Nat.min x y) j h'

theorem foldl_min_mem : ∀ (xs : List Nat) (x : Nat),
    xs.foldl Nat.min x = x ∨ xs.foldl Nat.min x ∈ xs := by
  intro xs
  induction xs with
  | nil => intro x; exact Or.inl rfl
  | cons y ys ih =>
      intro x
      simp only [List.foldl_cons]
      rcases ih (Nat.min x y) with h | h
      · rw [h]
        rcases Nat.le_total x y with hxy | hyx
        · have hmin : Nat.min x y = x := by simp [Nat.min, hxy]
          exact Or.inl hmin
        · have hmin : Nat.min x y = y := by simp [Nat.min]; omega
          exact Or.inr (by rw [hmin]; simp)
      · exact Or.inr (List.mem_cons_of_mem y h)

theorem listMin_le {l : List Nat} {j : Nat} (h : j ∈ l) : listMin l ≤ j := by
  cases l with
  | nil => cases h
  | cons x xs =>
      rcases List.mem_cons.mp h with h' | h'
      · subst h'; exact foldl_min_le_init xs j
      · exact foldl_min_le_mem xs x j h'

theorem listMin_mem {l : List Nat} (h : l ≠ []) : listMin l ∈ l := by
  cases l with
  | nil => exact absurd rfl h
  | cons x xs =>
      rcases foldl_min_mem xs x with h' | h'
      · rw [listMin, h']; simp
      · exact List.mem_cons_of_mem x h'

theorem foldl_min_of_le : ∀ (xs : List Nat) (x : Nat),
    (∀ y ∈ xs, x ≤ y) → xs.foldl Nat.min x = x := by
  intro xs
  induction xs with
  | nil => intro x _; rfl
  | cons y ys ih =>
      intro x h
      simp only [List.foldl_cons]
      have hxy : x ≤ y := h y (List.mem_cons_self y ys)
      have hmin : Nat.min x y = x := by simp [Nat.min, hxy]
      rw [hmin]
      exact ih x (fun z hz => h z (List.mem_cons_of_mem y hz))

/-- On a non-decreasing non-empty list, Python's `min` is the head (used to
relate the lowest-position semantics of the `first` lookups to the first
element of a key's position list). -/
theorem listMin_eq_head {x : Nat} {xs : List Nat}
    (hc : (x :: xs).Chain' (· ≤ ·)) : listMin (x :: xs) = x := by
  have hp := (List.chain'_iff_pairwise.mp hc)
  have hx : ∀ y ∈ xs, x ≤ y := by
    intro y hy
    exact List.rel_of_pairwise_cons hp hy
  exact foldl_min_of_le xs x hx

/-! ## Lookup facade

Each method takes the record store (`self.data_list`) and the mapper
(`self.mapper`) explicitly. The guarded pattern
(`index_list = self.mapper.get(key, None); if index_list is not None: ...`)
returns a plain list; the two methods that index the dict directly
(`self.mapper[mass]`) are modelled with `Except`, whose `error` case is
Python's `KeyError`. -/

/-- `self.data_list[index][return_key]` for a chosen record attribute. -/
def getVals {α : Type} (store : List ModRecord) (l : List Nat)
    (f : ModRecord → α) : List α :=
  l.map (fun i => f (recAt store i))

/-- `name2mass_list`. -/
def name2mass_list (store : List ModRecord) (m : Mapper)
    (unimod_name : String) : List Rat :=
  match mget m (MKey.str unimod_name) with
  | none => []
  | some l => getVals store l (fun r => r.mono_mass)

/-- `name2first_mass`: `min` of the position list, then that record's mass. -/
def name2first_mass (store : List ModRecord) (m : Mapper)
    (unimod_name : String) : Option Rat :=
  match mget m (MKey.str unimod_name) with
  | none => none
  | some l => some (recAt store (listMin l)).mono_mass

/-- `name2composition_list`. -/
def name2composition_list (store : List ModRecord) (m : Mapper)
    (unimod_name : String) : List (List (String × Int)) :=
  match mget m (MKey.str unimod_name) with
  | none => []
  | some l => getVals store l (fun r => r.element)

/-- `name2first_composition`. -/
def name2first_composition (store : List ModRecord) (m : Mapper)
    (unimod_name : String) : Option (List (String × Int)) :=
  match mget m (MKey.str unimod_name) with
  | none => none
  | some l => some (recAt store (listMin l)).element

/-- `name2id_list`. -/
def name2id_list (store : List ModRecord) (m : Mapper)
    (unimod_name : String) : List String :=
  match mget m (MKey.str unimod_name) with
  | none => []
  | some l => getVals store l (fun r => r.unimodID)

/-- `name2first_id`. -/
def name2first_id (store : List ModRecord) (m : Mapper)
    (unimod_name : String) : Option String :=
  match mget m (MKey.str unimod_name) with
  | none => none
  | some l => some (recAt store (listMin l)).unimodID

/-- `name2specificity_list`. -/
def name2specificity_list (store : List ModRecord) (m : Mapper)
    (unimod_name : String) : List (List (String × String)) :=
  match mget m (MKey.str unimod_name) with
  | none => []
  | some l => getVals store l (fun r => r.specificity)

/-- A Python `int | str` argument of the id-keyed lookups. -/
abbrev IdArg := Sum Int String

/-- The `if isinstance(unimod_id, int): unimod_id = str(unimod_id)`
normalization shared by all id-keyed lookups. -/
def normId : IdArg → String
  | Sum.inl n => toString n
  | Sum.inr s => s

/-- `id2mass_list`. -/
def id2mass_list (store : List ModRecord) (m : Mapper)
    (unimod_id : IdArg) : List Rat :=
  match mget m (MKey.str (normId unimod_id)) with
  | none => []
  | some l => getVals store l (fun r => r.mono_mass)

/-- `id2first_mass`. -/
def id2first_mass (store : List ModRecord) (m : Mapper)
    (unimod_id : IdArg) : Option Rat :=
  match mget m (MKey.str (normId unimod_id)) with
  | none => none
  | some l => some (recAt store (listMin l)).mono_mass

/-- `id2composition_list`. -/
def id2composition_list (store : List ModRecord) (m : Mapper)
    (unimod_id : IdArg) : List (List (String × Int)) :=
  match mget m (MKey.str (normId unimod_id)) with
  | none => []
  | some l => getVals store l (fun r => r.element)

/-- `id2first_composition`. -/
def id2first_composition (store : List ModRecord) (m : Mapper)
    (unimod_id : IdArg) : Option (List (String × Int)) :=
  match mget m (MKey.str (normId unimod_id)) with
  | none => none
  | some l => some (recAt store (listMin l)).element

/-- `id2name_list`. -/
def id2name_list (store : List ModRecord) (m : Mapper)
    (unimod_id : IdArg) : List String :=
  match mget m (MKey.str (normId unimod_id)) with
  | none => []
  | some l => getVals store l (fun r => r.unimodname)

/-- `id2first_name`. -/
def id2first_name (store : List ModRecord) (m : Mapper)
    (unimod_id : IdArg) : Option String :=
  match mget m (MKey.str (normId unimod_id)) with
  | none => none
  | some l => some (recAt store (listMin l)).unimodname

/-- `mass2name_list`: iterates `self.mapper[mass]` directly, so an absent
mass key is a `KeyError`, modelled as `Except.error`. -/
def mass2name_list (store : List ModRecord) (m : Mapper)
    (mass : Rat) : Except Unit (List String) :=
  match mget m (MKey.num mass) with
  | none => Except.error ()
  | some l => Except.ok (getVals store l (fun r => r.unimodname))

/-- `mass2id_list`: uses the guarded `get`, so an absent key yields `[]`. -/
def mass2id_list (store : List ModRecord) (m : Mapper)
    (mass : Rat) : List String :=
  match mget m (MKey.num mass) with
  | none => []
  | some l => getVals store l (fun r => r.unimodID)

/-- `mass2composition_list`: also indexes `self.mapper[mass]` directly. -/
def mass2composition_list (store : List ModRecord) (m : Mapper)
    (mass : Rat) : Except Unit (List (List (String × Int))) :=
  match mget m (MKey.num mass) with
  | none => Except.error ()
  | some l => Except.ok (getVals store l (fun r => r.element))

/-- `composition2name_list` (the key is the canonical composition string). -/
def composition2name_list (store : List ModRecord) (m : Mapper)
    (composition : String) : List String :=
  match mget m (MKey.str composition) with
  | none => []
  | some l => getVals store l (fun r => r.unimodname)

/-- `composition2id_list`. -/
def composition2id_list (store : List ModRecord) (m : Mapper)
    (composition : String) : List String :=
  match mget m (MKey.str composition) with
  | none => []
  | some l => getVals store l (fun r => r.unimodID)

/-- `composition2mass`: collects the matched masses and asserts that they
are all equal (`len(set(...)) == 1`); `Except.error` models the
`AssertionError`, `Except.ok none` the `None` returned for an absent key. -/
def composition2mass (store : List ModRecord) (m : Mapper)
    (composition : String) : Except Unit (Option Rat) :=
  match mget m (MKey.str composition) with
  | none => Except.ok none
  | some l =>
      let ms := getVals store l (fun r => r.mono_mass)
      if ms.dedup.length = 1 then Except.ok (some (ms.headD 0))
      else Except.error ()

/-! ## Approximate-mass lookups -/

/-- Python 3 `round` to an integer: round half to even on the exact value
(floats are modelled as exact rationals throughout). -/
def pyRoundInt (q : Rat) : Int :=
  let f := ⌊q⌋
  let r := q - (f : Rat)
  if r < 1 / 2 then f
  else if 1 / 2 < r then f + 1
  else if f % 2 = 0 then f else f + 1

/-- `round(x, decimal_places)`. -/
def pyRound (q : Rat) (decimal_places : Nat) : Rat :=
  (pyRoundInt (q * ((10 : Rat) ^ decimal_places)) : Rat) /
    ((10 : Rat) ^ decimal_places)

/-- `sys.float_info.epsilon` = 2⁻⁵² for IEEE double precision. -/
def floatEps : Rat := 1 / 2 ^ 52

/-- `_appMass2whatever`: keep every record whose mass, rounded to
`decimal_places`, is within `floatEps` of the (unrounded) query mass, and
return the requested attribute, in record-store order. -/
def appMass2whatever {α : Type} (store : List ModRecord) (mass : Rat)
    (decimal_places : Nat) (entry : ModRecord → α) : List α :=
  match store with
  | [] => []
  | r :: rs =>
      if |pyRound r.mono_mass decimal_places - mass| ≤ floatEps then
        entry r :: appMass2whatever rs mass decimal_places entry
      else appMass2whatever rs mass decimal_places entry

/-- `appMass2id_list`. -/
def appMass2id_list (store : List ModRecord) (mass : Rat)
    (decimal_places : Nat) : List String :=
  appMass2whatever store mass decimal_places (fun r => r.unimodID)

/-- `appMass2element_list`. -/
def appMass2element_list (store : List ModRecord) (mass : Rat)
    (decimal_places : Nat) : List (List (String × Int)) :=
  appMass2whatever store mass decimal_places (fun r => r.element)

/-- `appMass2name_list`. -/
def appMass2name_list (store : List ModRecord) (mass : Rat)
    (decimal_places : Nat) : List String :=
  appMass2whatever store mass decimal_places (fun r => r.unimodname)

/-! ## Parse-time element filtering and the overlay writer -/

/-- The `if number != 0` guard of `_parseXML`: element counts of zero are
never stored in a record's composition. -/
def parseElements (raw : List (String × Int)) : List (String × Int) :=
  raw.filter (fun p => decide (p.2 ≠ 0))

/-- A `modification_dict` handed to `writeXML` (`mass`, `name`,
`composition`, optional `id`). -/
structure UserMod where
  mass : Rat
  name : String
  composition : List (String × Int)
  id : Option String
  deriving DecidableEq, Repr

/-- The `if modification_dict.get("id", None) == None` branch of `writeXML`:
an entry without an id gets the positional marker `u<len(mod_dicts)>`. -/
def assignId (total : Nat) (m : UserMod) : UserMod :=
  match m.id with
  | some _ => m
  | none => { m with id := some ("u" ++ toString total) }

/-- Net effect of serializing one overlay entry to `usermod.xml` and
re-parsing it with `_parseXML`: the id becomes `record_id`, the name the
`title`, every composition pair is written out but zero counts are dropped
again on re-parse, no specificity entries are written, and the mass
round-trips exactly (`float(str(mass))` is the identity on Python floats,
hence the identity in the rational model). -/
def overlayRecord (m : UserMod) : ModRecord :=
  { unimodID := m.id.getD "", unimodname := m.name,
    element := parseElements m.composition,
    specificity := [], mono_mass := m.mass }

/-- `writeXML` followed by `_reparseXML`, in the default configuration
(`usermod.xml` then `unimod.xml`): `mod_dicts` is the previously written
overlay entries followed by the new one (`insert(-1, ...)` keeps the new
entry last), missing ids are synthesized from `len(mod_dicts)`, and the
store is re-parsed from the file list `[usermod, unimod, usermod]` (the
overlay path is appended a second time by `writeXML`), after which the
mapper is rebuilt from scratch by `_initialize_mapper`. -/
def writeXML (base : List ModRecord) (oldOverlay : List UserMod)
    (newMod : UserMod) : List ModRecord × Mapper :=
  let overlayRecs := (oldOverlay ++ [newMod]).map
    (fun d => overlayRecord (assignId (oldOverlay.length + 1) d))
  let data := overlayRecs ++ base ++ overlayRecs
  (data, initialize_mapper data)

/-! ## Request reconciler (`map_mods`)

Modelled from the spec: the reconciler `map_mods` is exercised by
`tests/test_map_mods.py` but its body is not among the available sources,
so the definitions below follow §4.3 of the specification: iterate the
ordered request list with its zero-based position; resolve a name-keyed
request through the index and select the lowest-position record compatible
with the request's site (`aa = "*"` matches any site; the spec leaves the
finer position-qualifier correspondence open); resolve an id-keyed request
by its stringified id, echoing the caller's id representation; annotate a
resolved request with `_id`, `org` and `unimod = true`; partition by the
fixed/variable classification; silently drop unresolvable requests. -/

/-- Modelled from the spec: the two request classifications (`fixed` /
`variable`, rendered `fix` / `opt` in the test fixtures). -/
inductive ModType where
  | fixedT
  | variableT
  deriving DecidableEq, Repr

/-- Modelled from the spec: a `neutral_loss` hint — a numeric literal or
the sentinel requesting a dataset-derived lookup. -/
inductive NLHint where
  | num (q : Rat)
  | sentinel
  deriving DecidableEq, Repr

/-- Modelled from the spec: a resolved `neutral_loss` value — no value, an
empty list, or a dataset-reported loss (a numeric string). -/
inductive NLValue where
  | nullV
  | emptyList
  | val (s : String)
  deriving DecidableEq, Repr

/-- Modelled from the spec: one modification request. -/
structure ModRequest where
  aa : String
  mtype : ModType
  position : String
  key : Sum String Int
  neutral_loss : Option NLHint
  deriving DecidableEq, Repr

/-- Modelled from the spec: one reconciler output entry. -/
structure MappedMod where
  aa : String
  position : String
  name : String
  mass : Rat
  composition : List (String × Int)
  id : Sum String Int
  neutral_loss : NLValue
  req_index : Nat
  org : ModRequest
  unimod : Bool
  deriving DecidableEq, Repr

/-- Modelled from the spec: a record is site-compatible with a request when
the request's site is the wildcard `*` or occurs among the record's
specificity sites. -/
def siteMatch (req : ModRequest) (r : ModRecord) : Bool :=
  req.aa == "*" || r.specificity.any (fun p => p.1 == req.aa)

/-- Modelled from the spec: resolve one request to a record and the echoed
id representation, or `none` when it is unresolvable. -/
def resolveCore (store : List ModRecord) (m : Mapper) (req : ModRequest) :
    Option (ModRecord × Sum String Int) :=
  match req.key with
  | Sum.inl nm =>
      match mget m (MKey.str nm) with
      | none => none
      | some l =>
          match (l.filter (fun i => siteMatch req (recAt store i))).head? with
          | none => none
          | some i => some (recAt store i, Sum.inl (recAt store i).unimodID)
  | Sum.inr n =>
      match mget m (MKey.str (toString n)) with
      | none => none
      | some l =>
          match l.head? with
          | none => none
          | some i => some (recAt store i, Sum.inr n)

/-- Modelled from the spec: resolve the request's `neutral_loss` hint —
absent hint gives no value, a numeric literal gives an empty list, the
sentinel consults the dataset-provided per-record, per-site store `nlData`
(left abstract, as §9 flags its exact source as open). -/
def resolveNL (nlData : ModRecord → String → NLValue) (req : ModRequest)
    (r : ModRecord) : NLValue :=
  match req.neutral_loss with
  | none => NLValue.nullV
  | some (NLHint.num _) => NLValue.emptyList
  | some NLHint.sentinel => nlData r req.aa

/-- Modelled from the spec: build the annotated output entry for a resolved
request at input position `i`. -/
def mkMapped (nlData : ModRecord → String → NLValue) (i : Nat)
    (req : ModRequest) (rd : ModRecord × Sum String Int) : MappedMod :=
  { aa := req.aa, position := req.position, name := rd.1.unimodname,
    mass := rd.1.mono_mass, composition := rd.1.element, id := rd.2,
    neutral_loss := resolveNL nlData req rd.1, req_index := i, org := req,
    unimod := true }

/-- Modelled from the spec: the reconciliation loop from input position `i`
on; returns the `(fixed, variable)` output pair. -/
def map_modsFrom (store : List ModRecord) (m : Mapper)
    (nlData : ModRecord → String → NLValue) (i : Nat) :
    List ModRequest → List MappedMod × List MappedMod
  | [] => ([], [])
  | req :: rest =>
      let tails := map_modsFrom store m nlData (i + 1) rest
      match resolveCore store m req with
      | none => tails
      | some rd =>
          let entry := mkMapped nlData i req rd
          match req.mtype with
          | ModType.fixedT => (entry :: tails.1, tails.2)
          | ModType.variableT => (tails.1, entry :: tails.2)

/-- Modelled from the spec: `map_mods` over a full request list. -/
def map_mods (store : List ModRecord) (m : Mapper)
    (nlData : ModRecord → String → NLValue) (requests : List ModRequest) :
    List MappedMod × List MappedMod :=
  map_modsFrom store m nlData 0 requests

/-! ## Concrete fixtures

A three-record dataset mirroring the named records of the test scenario in
`tests/test_map_mods.py` (masses abbreviated to small exact rationals — no
claim constrains their values, only their consistency). -/

def oxidationRec : ModRecord :=
  ⟨"35", "Oxidation", [("O", 1)], [("M", "Post-translational")], 16⟩

def carbamidomethylRec : ModRecord :=
  ⟨"4", "Carbamidomethyl", [("H", 3), ("C", 2), ("N", 1), ("O", 1)],
   [("C", "Chemical derivative")], 57⟩

def acetylRec : ModRecord :=
  ⟨"1", "Acetyl", [("H", 2), ("C", 2), ("O", 1)], [("N-term", "Multiple")], 42⟩

def testStore : List ModRecord := [oxidationRec, carbamidomethylRec, acetylRec]

/-- A trivial dataset-derived neutral-loss store (none of the scenario
requests carries a neutral-loss hint). -/
def trivNL : ModRecord → String → NLValue := fun _ _ => NLValue.nullV

/-- The three requests of the concrete reconciliation scenario. -/
def testRequests : List ModRequest :=
  [⟨"M", ModType.variableT, "any", Sum.inl "Oxidation", none⟩,
   ⟨"C", ModType.fixedT, "any", Sum.inl "Carbamidomethyl", none⟩,
   ⟨"*", ModType.variableT, "Prot-N-term", Sum.inl "Acetyl", none⟩]

/-! ## C8 -/

/-- C8: for every id-keyed lookup operation, querying with an integer id
`n` and with its string form `str(n)` return identical results, because the
key is normalized to its string form before the index is queried. -/
theorem id_lookups_int_str_agree (store : List ModRecord) (m : Mapper)
    (n : Int) :
    id2mass_list store m (Sum.inl n) = id2mass_list store m (Sum.inr (toString n)) ∧
    id2first_mass store m (Sum.inl n) = id2first_mass store m (Sum.inr (toString n)) ∧
    id2composition_list store m (Sum.inl n) = id2composition_list store m (Sum.inr (toString n)) ∧
    id2first_composition store m (Sum.inl n) = id2first_composition store m (Sum.inr (toString n)) ∧
    id2name_list store m (Sum.inl n) = id2name_list store m (Sum.inr (toString n)) ∧
    id2first_name store m (Sum.inl n) = id2first_name store m (Sum.inr (toString n)) :=
  ⟨rfl, rfl, rfl, rfl, rfl, rfl⟩

/-! ## C3 -/

/-- C3 counterexample: the mass `9999` is absent from the index built over
the three-record fixture, yet `mass2name_list` raises a `KeyError`
(`Except.error`) instead of returning an empty list, because it indexes
`self.mapper[mass]` without a guard. -/
theorem mass2name_list_absent_key_raises :
    mget (initialize_mapper testStore) (MKey.num 9999) = none ∧
    mass2name_list testStore (initialize_mapper testStore) 9999 =
      Except.error () ∧
    mass2composition_list testStore (initialize_mapper testStore) 9999 =
      Except.error () := by
  refine ⟨by decide, ?_, ?_⟩
  · simp [mass2name_list, show mget (initialize_mapper testStore) (MKey.num 9999) = none from by decide]
  · simp [mass2composition_list, show mget (initialize_mapper testStore) (MKey.num 9999) = none from by decide]

/-- C3 (amended): for every key absent from the index, every list-variant
lookup that guards the lookup with `get` returns an empty list and raises
no error, while `mass2name_list` and `mass2composition_list` — which index
the mapper directly — raise a `KeyError` instead. -/
theorem list_lookups_absent_key (store : List ModRecord) (m : Mapper)
    (nm : String) (uid : IdArg) (mass : Rat) (comp : String)
    (hnm : mget m (MKey.str nm) = none)
    (hid : mget m (MKey.str (normId uid)) = none)
    (hms : mget m (MKey.num mass) = none)
    (hcp : mget m (MKey.str comp) = none) :
    name2mass_list store m nm = [] ∧
    name2composition_list store m nm = [] ∧
    name2id_list store m nm = [] ∧
    name2specificity_list store m nm = [] ∧
    id2mass_list store m uid = [] ∧
    id2composition_list store m uid = [] ∧
    id2name_list store m uid = [] ∧
    mass2id_list store m mass = [] ∧
    composition2name_list store m comp = [] ∧
    composition2id_list store m comp = [] ∧
    mass2name_list store m mass = Except.error () ∧
    mass2composition_list store m mass = Except.error () := by
  simp [name2mass_list, name2composition_list, name2id_list,
    name2specificity_list, id2mass_list, id2composition_list, id2name_list,
    mass2id_list, composition2name_list, composition2id_list,
    mass2name_list, mass2composition_list, hnm, hid, hms, hcp]

/-- C3 witness: the amended statement applied to the fixture with the
absent name `Yadailation`, id `999`, mass `9999` and composition string
`Q(1)`. -/
theorem list_lookups_absent_key_witness :
    name2mass_list testStore (initialize_mapper testStore) "Yadailation" = [] ∧
    id2name_list testStore (initialize_mapper testStore) (Sum.inl 999) = [] ∧
    mass2id_list testStore (initialize_mapper testStore) 9999 = [] ∧
    mass2name_list testStore (initialize_mapper testStore) 9999 =
      Except.error () := by
  have h := list_lookups_absent_key testStore (initialize_mapper testStore)
    "Yadailation" (Sum.inl 999) 9999 "Q(1)"
    (by decide) (by decide) (by decide) (by decide)
  exact ⟨h.1, h.2.2.2.2.2.2.1, h.2.2.2.2.2.2.2.1, h.2.2.2.2.2.2.2.2.2.2.1⟩

/-! ## C4 -/

/-- C4: for every key present in the built index, each first-variant lookup
(`name2first_mass`, `id2first_name`) returns the requested attribute of the
record at the lowest record position among all matches; for an absent key
it returns `None`. -/
theorem first_lookups_lowest_position (store : List ModRecord) (nm : String)
    (uid : IdArg) :
    (mget (initialize_mapper store) (MKey.str nm) = none →
       name2first_mass store (initialize_mapper store) nm = none) ∧
    (∀ l, mget (initialize_mapper store) (MKey.str nm) = some l →
       listMin l ∈ l ∧ (∀ j ∈ l, listMin l ≤ j) ∧ listMin l < store.length ∧
       name2first_mass store (initialize_mapper store) nm =
         some (recAt store (listMin l)).mono_mass) ∧
    (mget (initialize_mapper store) (MKey.str (normId uid)) = none →
       id2first_name store (initialize_mapper store) uid = none) ∧
    (∀ l, mget (initialize_mapper store) (MKey.str (normId uid)) = some l →
       listMin l ∈ l ∧ (∀ j ∈ l, listMin l ≤ j) ∧ listMin l < store.length ∧
       id2first_name store (initialize_mapper store) uid =
         some (recAt store (listMin l)).unimodname) := by
  refine ⟨?_, ?_, ?_, ?_⟩
  · intro h; simp [name2first_mass, h]
  · intro l hl
    obtain ⟨hne, _, hb⟩ := sbound_init store (MKey.str nm) l hl
    have hmem := listMin_mem hne
    exact ⟨hmem, fun j hj => listMin_le hj, hb _ hmem,
      by simp [name2first_mass, hl]⟩
  · intro h; simp [id2first_name, h]
  · intro l hl
    obtain ⟨hne, _, hb⟩ := sbound_init store (MKey.str (normId uid)) l hl
    have hmem := listMin_mem hne
    exact ⟨hmem, fun j hj => listMin_le hj, hb _ hmem,
      by simp [id2first_name, hl]⟩

/-- C4 witness: on the fixture, `name2first_mass "Oxidation"` returns the
mass of the single Oxidation record and `id2first_name 4` (an integer id)
the name of the Carbamidomethyl record. -/
theorem first_lookups_lowest_position_witness :
    name2first_mass testStore (initialize_mapper testStore) "Oxidation" =
      some 16 ∧
    id2first_name testStore (initialize_mapper testStore) (Sum.inl 4) =
      some "Carbamidomethyl" := by
  have h := first_lookups_lowest_position testStore "Oxidation" (Sum.inl 4)
  have h1 := (h.2.1 [0] (by decide)).2.2.2
  have h2 := (h.2.2.2 [1] (by decide)).2.2.2
  exact ⟨by rw [h1]; decide, by rw [h2]; decide⟩

/-! ## C10 -/

/-- A record whose name coincides with its id string: both register the
same key, so that key's position list gains the same index twice. -/
def dupKeyRec : ModRecord := ⟨"X", "X", [], [], 0⟩

/-- C10 counterexample: in the index built over a store with one record
whose id string and name coincide, the key `"X"` maps to `[0, 0]`, which is
not strictly increasing — the construction appends one index per matching
attribute, not per record. -/
theorem index_list_not_strictly_increasing :
    mget (initialize_mapper [dupKeyRec]) (MKey.str "X") = some [0, 0] ∧
    ¬ List.Chain' (· < ·) ([0, 0] : List Nat) :=
  ⟨by decide, by simp⟩

/-- C10 (amended): every key present in the built index maps to a non-empty
list of valid record positions that is sorted non-decreasingly (strictness
can fail when two key attributes of one record coincide), so the minimum of
a key's list equals its first element. -/
theorem index_invariants (store : List ModRecord) (k : MKey) (l : List Nat)
    (hl : mget (initialize_mapper store) k = some l) :
    l ≠ [] ∧ l.Chain' (· ≤ ·) ∧ (∀ i ∈ l, i < store.length) ∧
    listMin l = l.headD 0 := by
  obtain ⟨h1, h2, h3⟩ := sbound_init store k l hl
  refine ⟨h1, h2, h3, ?_⟩
  cases l with
  | nil => exact absurd rfl h1
  | cons x xs => simpa using listMin_eq_head h2

/-- C10 witness: the invariants instantiated on the fixture's key
`"Oxidation"`, whose position list is `[0]`. -/
theorem index_invariants_witness :
    ([0] : List Nat) ≠ [] ∧ List.Chain' (· ≤ ·) ([0] : List Nat) ∧
    (∀ i ∈ ([0] : List Nat), i < testStore.length) ∧
    listMin [0] = ([0] : List Nat).headD 0 :=
  index_invariants testStore (MKey.str "Oxidation") [0] (by decide)

/-! ## C6 -/

theorem dedup_eq_singleton_of_const {l : List Rat} {v : Rat} (hne : l ≠ [])
    (hall : ∀ x ∈ l, x = v) : l.dedup = [v] := by
  induction l with
  | nil => exact absurd rfl hne
  | cons x xs ih =>
      have hx : x = v := hall x (List.mem_cons_self x xs)
      subst hx
      by_cases h : xs = []
      · subst h; simp
      · obtain ⟨y, hy⟩ : ∃ y, y ∈ xs := by
          cases xs with
          | nil => exact absurd rfl h
          | cons z zs => exact ⟨z, List.mem_cons_self z zs⟩
        have hv : x ∈ xs := by
          have hyv := hall y (List.mem_cons_of_mem _ hy)
          rwa [hyv] at hy
        rw [List.dedup_cons_of_mem hv]
        exact ih h (fun z hz => hall z (List.mem_cons_of_mem _ hz))

/-- C6: `composition2mass` on a key present in the built index fails with
the assertion (`Except.error`) exactly when the matched records carry more
than one distinct `mono_mass`; when all matches share one mass it returns
that mass, and for an absent key it returns `None` without error. -/
theorem composition2mass_spec (store : List ModRecord) (comp : String) :
    (mget (initialize_mapper store) (MKey.str comp) = none →
       composition2mass store (initialize_mapper store) comp =
         Except.ok none) ∧
    (∀ l, mget (initialize_mapper store) (MKey.str comp) = some l →
       (composition2mass store (initialize_mapper store) comp =
           Except.error () ↔
         1 < (getVals store l (fun r => r.mono_mass)).dedup.length)) ∧
    (∀ l v, mget (initialize_mapper store) (MKey.str comp) = some l →
       (∀ i ∈ l, (recAt store i).mono_mass = v) →
       composition2mass store (initialize_mapper store) comp =
         Except.ok (some v)) := by
  refine ⟨?_, ?_, ?_⟩
  · intro h; simp [composition2mass, h]
  · intro l hl
    obtain ⟨hne, _, _⟩ := sbound_init store (MKey.str comp) l hl
    have hne' : getVals store l (fun r => r.mono_mass) ≠ [] := by
      cases l with
      | nil => exact absurd rfl hne
      | cons x xs => simp [getVals]
    have hpos : 0 < (getVals store l (fun r => r.mono_mass)).dedup.length := by
      rw [List.length_pos]
      intro hcon
      rw [List.dedup_eq_nil] at hcon
      exact hne' hcon
    have hunfold : composition2mass store (initialize_mapper store) comp =
        (if (getVals store l (fun r => r.mono_mass)).dedup.length = 1
         then Except.ok
           (some ((getVals store l (fun r => r.mono_mass)).headD 0))
         else Except.error ()) := by
      simp [composition2mass, hl]
    rw [hunfold]
    by_cases hlen :
        (getVals store l (fun r => r.mono_mass)).dedup.length = 1
    · rw [if_pos hlen]
      constructor
      · intro hcon; cases hcon
      · intro h1; omega
    · rw [if_neg hlen]
      exact ⟨fun _ => by omega, fun _ => rfl⟩
  · intro l v hl hall
    obtain ⟨hne, _, _⟩ := sbound_init store (MKey.str comp) l hl
    have hvals : ∀ x ∈ getVals store l (fun r => r.mono_mass), x = v := by
      intro x hx
      simp [getVals] at hx
      obtain ⟨i, hi, hxi⟩ := hx
      rw [← hxi]
      exact hall i hi
    have hne' : getVals store l (fun r => r.mono_mass) ≠ [] := by
      cases l with
      | nil => exact absurd rfl hne
      | cons x xs => simp [getVals]
    have hd := dedup_eq_singleton_of_const hne' hvals
    have hhead : (getVals store l (fun r => r.mono_mass)).head?.getD 0 = v := by
      cases l with
      | nil => exact absurd rfl hne
      | cons i is =>
          simp [getVals]
          exact hall i (List.mem_cons_self i is)
    simpa [composition2mass, hl, hd] using hhead

/-- A store with two records sharing the composition `O(2)` but carrying
different masses, and a third with a unique composition. -/
def compStoreA : List ModRecord :=
  [⟨"10", "ModA", [("O", 2)], [], 31⟩,
   ⟨"11", "ModB", [("O", 2)], [], 32⟩,
   ⟨"12", "ModC", [("S", 1)], [], 32⟩]

/-- C6 witness: the inconsistent composition `O(2)` trips the assertion,
the consistent `S(1)` returns its mass, and the absent `P(1)` returns
`None`. -/
theorem composition2mass_spec_witness :
    composition2mass compStoreA (initialize_mapper compStoreA) "O(2)" =
      Except.error () ∧
    composition2mass compStoreA (initialize_mapper compStoreA) "S(1)" =
      Except.ok (some 32) ∧
    composition2mass compStoreA (initialize_mapper compStoreA) "P(1)" =
      Except.ok none := by
  refine ⟨?_, ?_, ?_⟩
  · exact ((composition2mass_spec compStoreA "O(2)").2.1 [0, 1]
      (by decide)).mpr (by decide)
  · exact (composition2mass_spec compStoreA "S(1)").2.2 [2] 32
      (by decide) (by decide)
  · exact (composition2mass_spec compStoreA "P(1)").1 (by decide)

/-! ## C7 -/

/-- The approximate-mass criterion as the claim words it: compare the
record's rounded mass against the *rounded* query mass. -/
def appMass2whateverRoundedQuery {α : Type} (store : List ModRecord)
    (mass : Rat) (decimal_places : Nat) (entry : ModRecord → α) : List α :=
  (store.filter (fun r =>
    decide (|pyRound r.mono_mass decimal_places -
      pyRound mass decimal_places| ≤ floatEps))).map entry

/-- A single record of integer mass 18. -/
def fluoroRec : ModRecord := ⟨"127", "Fluoro", [("F", 1), ("H", -1)], [], 18⟩

/-- C7 counterexample: with query mass 18.2 and 0 decimal places, the
record of mass 18 satisfies the claim's criterion (record mass and query
mass both round to 18), yet the code returns the empty list — the code
compares the rounded record mass against the *unrounded* query mass. -/
theorem appMass_query_not_rounded :
    appMass2id_list [fluoroRec] ((91 : Rat) / 5) 0 = [] ∧
    appMass2whateverRoundedQuery [fluoroRec] ((91 : Rat) / 5) 0
      (fun r => r.unimodID) = ["127"] := by
  have h1 : pyRound (18 : Rat) 0 = 18 := by norm_num [pyRound, pyRoundInt]
  have h2 : pyRound ((91 : Rat) / 5) 0 = 18 := by
    norm_num [pyRound, pyRoundInt]
  constructor
  · have hgap : ¬ |pyRound (18 : Rat) 0 - (91 : Rat) / 5| ≤ floatEps := by
      rw [h1, abs_le]
      norm_num [floatEps]
    simp [appMass2id_list, appMass2whatever, fluoroRec, hgap]
  · have hhit : |pyRound (18 : Rat) 0 - pyRound ((91 : Rat) / 5) 0| ≤ floatEps := by
      rw [h1, h2]
      norm_num [floatEps]
    simp [appMass2whateverRoundedQuery, fluoroRec, hhit]

theorem appMass_filter_aux {α : Type} (store : List ModRecord) (mass : Rat)
    (d : Nat) (entry : ModRecord → α) :
    appMass2whatever store mass d entry =
      (store.filter (fun r =>
        decide (|pyRound r.mono_mass d - mass| ≤ floatEps))).map entry := by
  induction store with
  | nil => rfl
  | cons r rs ih =>
      by_cases h : |pyRound r.mono_mass d - mass| ≤ floatEps
      · simp [appMass2whatever, h, List.filter_cons, ih]
      · simp [appMass2whatever, h, List.filter_cons, ih]

/-- C7 (amended): every approximate-mass lookup returns the requested
attribute of exactly those records whose `mono_mass`, rounded to the given
number of decimal places, differs from the (unrounded) query mass by at
most machine epsilon, in record-store order. -/
theorem appMass_lookups_are_filters (store : List ModRecord) (mass : Rat)
    (d : Nat) :
    appMass2id_list store mass d =
      (store.filter (fun r =>
        decide (|pyRound r.mono_mass d - mass| ≤ floatEps))).map
        (fun r => r.unimodID) ∧
    appMass2name_list store mass d =
      (store.filter (fun r =>
        decide (|pyRound r.mono_mass d - mass| ≤ floatEps))).map
        (fun r => r.unimodname) ∧
    appMass2element_list store mass d =
      (store.filter (fun r =>
        decide (|pyRound r.mono_mass d - mass| ≤ floatEps))).map
        (fun r => r.element) :=
  ⟨appMass_filter_aux store mass d (fun r => r.unimodID),
   appMass_filter_aux store mass d (fun r => r.unimodname),
   appMass_filter_aux store mass d (fun r => r.element)⟩

/-! ## C1 -/

/-- The per-classification selector of the reconciler: at input position
`p.1`, a request of classification `t` that resolves contributes its
annotated output entry. -/
def pickCls (store : List ModRecord) (m : Mapper)
    (nlData : ModRecord → String → NLValue) (t : ModType)
    (p : Nat × ModRequest) : Option MappedMod :=
  if p.2.mtype = t then
    (resolveCore store m p.2).map (fun rd => mkMapped nlData p.1 p.2 rd)
  else none

theorem map_modsFrom_eq (store : List ModRecord) (m : Mapper)
    (nlData : ModRecord → String → NLValue) :
    ∀ (reqs : List ModRequest) (i : Nat),
      map_modsFrom store m nlData i reqs =
        ((List.enumFrom i reqs).filterMap
           (pickCls store m nlData ModType.fixedT),
         (List.enumFrom i reqs).filterMap
           (pickCls store m nlData ModType.variableT)) := by
  intro reqs
  induction reqs with
  | nil => intro i; rfl
  | cons req rest ih =>
      intro i
      simp only [map_modsFrom, ih (i + 1), List.enumFrom]
      cases hres : resolveCore store m req with
      | none => simp [pickCls, hres]
      | some rd =>
          cases hty : req.mtype with
          | fixedT => simp [pickCls, hres, hty]
          | variableT => simp [pickCls, hres, hty]

/-- C1: `map_mods` partitions resolved requests into the two ordered output
lists by classification — each output list is the in-order selection of the
enumerated requests of that classification that resolve — every produced
entry carries `_id` equal to the request's zero-based input position, `org`
equal to the untouched original request and `unimod = true`; and on the
concrete three-request scenario against the three-record dataset the
variable list holds Oxidation (`_id = 0`) and Acetyl (`_id = 2`) and the
fixed list holds Carbamidomethyl (`_id = 1`). -/
theorem map_mods_partitions :
    (∀ (store : List ModRecord) (m : Mapper)
       (nlData : ModRecord → String → NLValue) (reqs : List ModRequest),
       map_mods store m nlData reqs =
         (reqs.enum.filterMap (pickCls store m nlData ModType.fixedT),
          reqs.enum.filterMap (pickCls store m nlData ModType.variableT))) ∧
    (∀ (nlData : ModRecord → String → NLValue) (i : Nat)
       (req : ModRequest) (rd : ModRecord × Sum String Int),
       (mkMapped nlData i req rd).req_index = i ∧
       (mkMapped nlData i req rd).org = req ∧
       (mkMapped nlData i req rd).unimod = true) ∧
    map_mods testStore (initialize_mapper testStore) trivNL testRequests =
      ([⟨"C", "any", "Carbamidomethyl", 57,
         [("H", 3), ("C", 2), ("N", 1), ("O", 1)], Sum.inl "4",
         NLValue.nullV, 1,
         ⟨"C", ModType.fixedT, "any", Sum.inl "Carbamidomethyl", none⟩,
         true⟩],
       [⟨"M", "any", "Oxidation", 16, [("O", 1)], Sum.inl "35",
         NLValue.nullV, 0,
         ⟨"M", ModType.variableT, "any", Sum.inl "Oxidation", none⟩, true⟩,
        ⟨"*", "Prot-N-term", "Acetyl", 42, [("H", 2), ("C", 2), ("O", 1)],
         Sum.inl "1", NLValue.nullV, 2,
         ⟨"*", ModType.variableT, "Prot-N-term", Sum.inl "Acetyl", none⟩,
         true⟩]) := by
  refine ⟨?_, ?_, by decide⟩
  · intro store m nlData reqs
    exact map_modsFrom_eq store m nlData reqs 0
  · intro nlData i req rd
    exact ⟨rfl, rfl, rfl⟩

/-! ## C2 -/

/-- C2: when no request resolves, `map_mods` returns two empty lists (it is
a total function, so no exception is raised), and an unresolvable request
contributes no output at all — the loop simply moves on to the next input
position, leaving a gap in the `_id` sequence. -/
theorem map_mods_all_unresolvable (store : List ModRecord) (m : Mapper)
    (nlData : ModRecord → String → NLValue) :
    (∀ reqs : List ModRequest,
       (∀ req ∈ reqs, resolveCore store m req = none) →
       map_mods store m nlData reqs = ([], [])) ∧
    (∀ (i : Nat) (req : ModRequest) (rest : List ModRequest),
       resolveCore store m req = none →
       map_modsFrom store m nlData i (req :: rest) =
         map_modsFrom store m nlData (i + 1) rest) := by
  have aux : ∀ (reqs : List ModRequest),
      (∀ req ∈ reqs, resolveCore store m req = none) →
      ∀ i, map_modsFrom store m nlData i reqs = ([], []) := by
    intro reqs h
    induction reqs with
    | nil => intro i; rfl
    | cons req rest ih =>
        intro i
        have h1 : resolveCore store m req = none :=
          h req (List.mem_cons_self req rest)
        have h2 := ih (fun r hr => h r (List.mem_cons_of_mem _ hr)) (i + 1)
        simp only [map_modsFrom]
        rw [h1]
        exact h2
  constructor
  · intro reqs h
    exact aux reqs h 0
  · intro i req rest h1
    simp only [map_modsFrom]
    rw [h1]

/-- Two requests naming a modification absent from the dataset. -/
def yadaRequests : List ModRequest :=
  [⟨"M", ModType.variableT, "any", Sum.inl "Yadailation", none⟩,
   ⟨"C", ModType.fixedT, "any", Sum.inl "Yadailation", none⟩]

/-- C2 witness: reconciling the two `Yadailation` requests against the
three-record dataset yields two empty lists. -/
theorem map_mods_all_unresolvable_witness :
    map_mods testStore (initialize_mapper testStore) trivNL yadaRequests =
      ([], []) :=
  (map_mods_all_unresolvable testStore (initialize_mapper testStore)
    trivNL).1 yadaRequests (by decide)

/-! ## C5: order lemmas for the canonical composition string -/

theorem charListLe_total : ∀ (a b : List Char),
    charListLe a b = true ∨ charListLe b a = true := by
  intro a
  induction a with
  | nil => intro b; exact Or.inl rfl
  | cons c cs ih =>
      intro b
      cases b with
      | nil => exact Or.inr rfl
      | cons d ds =>
          simp only [charListLe]
          by_cases h1 : c.val.toNat < d.val.toNat
          · left; simp [h1]
          · by_cases h2 : d.val.toNat < c.val.toNat
            · right; simp [h2]
            · simp [h1, h2]
              exact ih ds

theorem charListLe_trans : ∀ (a b c : List Char), charListLe a b = true →
    charListLe b c = true → charListLe a c = true := by
  intro a
  induction a with
  | nil => intro b c _ _; rfl
  | cons x xs ih =>
      intro b c hab hbc
      cases b with
      | nil => simp [charListLe] at hab
      | cons y ys =>
          cases c with
          | nil => simp [charListLe] at hbc
          | cons z zs =>
              simp only [charListLe] at hab hbc ⊢
              by_cases h1 : x.val.toNat < y.val.toNat
              · by_cases h2 : y.val.toNat < z.val.toNat
                · have h5 : x.val.toNat < z.val.toNat := by omega
                  simp [h5]
                · by_cases h3 : z.val.toNat < y.val.toNat
                  · simp [h2, h3] at hbc
                  · have h5 : x.val.toNat < z.val.toNat := by omega
                    simp [h5]
              · by_cases h2 : y.val.toNat < x.val.toNat
                · simp [h1, h2] at hab
                · simp [h1, h2] at hab
                  by_cases h3 : y.val.toNat < z.val.toNat
                  · have h5 : x.val.toNat < z.val.toNat := by omega
                    simp [h5]
                  · by_cases h4 : z.val.toNat < y.val.toNat
                    · simp [h3, h4] at hbc
                    · simp [h3, h4] at hbc
                      have h5 : ¬ x.val.toNat < z.val.toNat := by omega
                      have h6 : ¬ z.val.toNat < x.val.toNat := by omega
                      simp [h5, h6]
                      exact ih ys zs hab hbc

theorem strLe_total (a b : String) : strLe a b = true ∨ strLe b a = true :=
  charListLe_total a.data b.data

theorem strLe_trans {a b c : String} (h1 : strLe a b = true)
    (h2 : strLe b c = true) : strLe a c = true :=
  charListLe_trans a.data b.data c.data h1 h2

theorem mem_insertPair {x p : String × Int} :
    ∀ {l : List (String × Int)}, x ∈ insertPair p l → x = p ∨ x ∈ l := by
  intro l
  induction l with
  | nil =>
      intro h
      simp [insertPair] at h
      exact Or.inl h
  | cons q qs ih =>
      intro h
      simp only [insertPair] at h
      by_cases hle : strLe p.1 q.1 = true
      · rw [if_pos hle] at h
        rcases List.mem_cons.mp h with h | h
        · exact Or.inl h
        · exact Or.inr h
      · rw [if_neg hle] at h
        rcases List.mem_cons.mp h with h | h
        · exact Or.inr (List.mem_cons.mpr (Or.inl h))
        · rcases ih h with h' | h'
          · exact Or.inl h'
          · exact Or.inr (List.mem_cons.mpr (Or.inr h'))

theorem pairwise_insertPair {p : String × Int} :
    ∀ {l : List (String × Int)},
      l.Pairwise (fun a b => strLe a.1 b.1 = true) →
      (insertPair p l).Pairwise (fun a b => strLe a.1 b.1 = true) := by
  intro l
  induction l with
  | nil => intro _; simp [insertPair]
  | cons q qs ih =>
      intro hl
      obtain ⟨hq, hqs⟩ := List.pairwise_cons.mp hl
      simp only [insertPair]
      by_cases hle : strLe p.1 q.1 = true
      · rw [if_pos hle]
        refine List.pairwise_cons.mpr ⟨?_, hl⟩
        intro b hb
        rcases List.mem_cons.mp hb with hb | hb
        · subst hb; exact hle
        · exact strLe_trans hle (hq b hb)
      · rw [if_neg hle]
        refine List.pairwise_cons.mpr ⟨?_, ih hqs⟩
        intro b hb
        rcases mem_insertPair hb with hb | hb
        · subst hb
          rcases strLe_total q.1 b.1 with h | h
          · exact h
          · exact absurd h hle
        · exact hq b hb

theorem pairwise_sortPairs : ∀ (l : List (String × Int)),
    (sortPairs l).Pairwise (fun a b => strLe a.1 b.1 = true) := by
  intro l
  induction l with
  | nil => simp [sortPairs]
  | cons p ps ih => exact pairwise_insertPair ih

theorem lookupPair_eq_none : ∀ (l : List (String × Int)) (s : String),
    s ∉ l.map Prod.fst → lookupPair l s = none := by
  intro l
  induction l with
  | nil => intro s _; rfl
  | cons p ps ih =>
      obtain ⟨s0, n0⟩ := p
      intro s hs
      simp only [List.map_cons, List.mem_cons] at hs
      push_neg at hs
      simp only [lookupPair]
      rw [if_neg (fun h => hs.1 h.symm)]
      exact ih s hs.2

theorem lookupPair_parseElements : ∀ (raw : List (String × Int)),
    (raw.map Prod.fst).Nodup → ∀ (s : String),
    lookupPair (parseElements raw) s =
      (match lookupPair raw s with
       | some n => if n = 0 then none else some n
       | none => none) := by
  intro raw
  induction raw with
  | nil => intro _ s; rfl
  | cons p ps ih =>
      obtain ⟨s0, n0⟩ := p
      intro hd s
      simp only [List.map_cons, List.nodup_cons] at hd
      obtain ⟨hs0, hdps⟩ := hd
      by_cases hn0 : n0 = 0
      · subst hn0
        have hpe : parseElements ((s0, (0 : Int)) :: ps) = parseElements ps := by
          simp [parseElements]
        rw [hpe]
        by_cases hss : s0 = s
        · subst hss
          have h2 : lookupPair (parseElements ps) s0 = none := by
            apply lookupPair_eq_none
            intro hmem
            apply hs0
            obtain ⟨q, hq, hq2⟩ := List.mem_map.mp hmem
            exact List.mem_map.mpr ⟨q, (List.mem_filter.mp hq).1, hq2⟩
          simp [lookupPair, h2]
        · simp only [lookupPair, if_neg hss]
          exact ih hdps s
      · have hpe : parseElements ((s0, n0) :: ps) =
            (s0, n0) :: parseElements ps := by
          simp [parseElements, hn0]
        rw [hpe]
        by_cases hss : s0 = s
        · subst hss
          simp [lookupPair, hn0]
        · simp only [lookupPair, if_neg hss]
          exact ih hdps s

/-- The concatenation of the `Symbol(count)` renderings of a list. -/
def joinFmt : List (String × Int) → String
  | [] => ""
  | p :: ps => fmtElem p.1 p.2 ++ joinFmt ps

theorem foldl_fmt_append : ∀ (l : List (String × Int)) (a : String),
    l.foldl (fun acc p => acc ++ fmtElem p.1 p.2) a = a ++ joinFmt l := by
  intro l
  induction l with
  | nil => intro a; simp [joinFmt]
  | cons p ps ih =>
      intro a
      simp only [List.foldl_cons, joinFmt]
      rw [ih, String.append_assoc]

/-- Spec-shaped rendering of one major element: its `Symbol(count)` string
when present with a non-zero count, empty otherwise. -/
def renderOpt (s : String) (raw : List (String × Int)) : String :=
  match lookupPair raw s with
  | some n => if n = 0 then "" else fmtElem s n
  | none => ""

/-- The canonical composition string as the spec words it: the carbon
count first, then the hydrogen count, then all remaining non-zero elements
in lexicographic symbol order, each rendered `Symbol(count)`, zero counts
omitted. -/
def canonicalRender (raw : List (String × Int)) : String :=
  renderOpt "C" raw ++ renderOpt "H" raw ++
    joinFmt ((sortPairs (parseElements raw)).filter
      (fun p => decide (p.1 ∉ MAJORS)))

theorem recAt_mem {store : List ModRecord} {i : Nat} (h : i < store.length) :
    recAt store i ∈ store := by
  unfold recAt
  rw [List.getD_eq_getElem?_getD, List.getElem?_eq_getElem h]
  exact List.getElem_mem h

/-! ## C5 -/

/-- C5: the canonical composition string registered for a (parsed) record
renders carbon first, then hydrogen, then the remaining elements in
lexicographic symbol order with zero counts omitted (equal to the
spec-shaped `canonicalRender` and with the remainder sorted); and every key
of the built index is one of a record's four keys — its id string, its
name, its canonical composition string, or its mass — so composition
contributes only the canonical string and specificity contributes
nothing. -/
theorem hillNotation_canonical (raw : List (String × Int))
    (hd : (raw.map Prod.fst).Nodup) :
    hillNotation (parseElements raw) = canonicalRender raw ∧
    (∀ p ∈ parseElements raw, p.2 ≠ 0) ∧
    ((sortPairs (parseElements raw)).filter
       (fun p => decide (p.1 ∉ MAJORS))).Pairwise
      (fun a b => strLe a.1 b.1 = true) ∧
    (∀ (store : List ModRecord) (k : MKey) (l : List Nat),
       mget (initialize_mapper store) k = some l →
       ∃ r, r ∈ store ∧ (k = MKey.str r.unimodID ∨ k = MKey.str r.unimodname ∨
         k = MKey.str (hillNotation r.element) ∨ k = MKey.num r.mono_mass)) := by
  refine ⟨?_, ?_, ?_, ?_⟩
  · have hC := lookupPair_parseElements raw hd "C"
    have hH := lookupPair_parseElements raw hd "H"
    simp only [hillNotation, MAJORS, List.foldl_cons, List.foldl_nil,
      canonicalRender, renderOpt]
    rw [foldl_fmt_append, hC, hH]
    cases hc : lookupPair raw "C" with
    | none =>
        cases hh : lookupPair raw "H" with
        | none => simp
        | some n => by_cases hn : n = 0 <;> simp [hn, String.append_assoc]
    | some n =>
        by_cases hn : n = 0
        · cases hh : lookupPair raw "H" with
          | none => simp [hn]
          | some n' =>
              by_cases hn' : n' = 0 <;> simp [hn, hn', String.append_assoc]
        · cases hh : lookupPair raw "H" with
          | none => simp [hn, String.append_assoc]
          | some n' =>
              by_cases hn' : n' = 0 <;> simp [hn, hn', String.append_assoc]
  · intro p hp
    have := (List.mem_filter.mp hp).2
    simpa using this
  · exact (pairwise_sortPairs (parseElements raw)).filter _
  · intro store k l hl
    obtain ⟨hne, -, -⟩ := sbound_init store k l hl
    have hmem := listMin_mem hne
    obtain ⟨hlt, hk⟩ := mget_init_sound store k l hl (listMin l) hmem
    refine ⟨recAt store (listMin l), recAt_mem hlt, ?_⟩
    simpa [recordKeys] using hk

/-- C5 witness: the rendering applied to a raw composition with a zero
count and unsorted symbols. -/
theorem hillNotation_canonical_witness :
    hillNotation (parseElements [("O", 1), ("N", 0), ("H", 3), ("C", 2)]) =
      canonicalRender [("O", 1), ("N", 0), ("H", 3), ("C", 2)] ∧
    (∀ p ∈ parseElements [("O", 1), ("N", 0), ("H", 3), ("C", 2)],
       p.2 ≠ 0) := by
  have h := hillNotation_canonical [("O", 1), ("N", 0), ("H", 3), ("C", 2)]
    (by decide)
  exact ⟨h.1, h.2.1⟩

/-! ## C9 -/

theorem name2first_mass_eq {store : List ModRecord} {m : Mapper}
    {nm : String} {l : List Nat} (hl : mget m (MKey.str nm) = some l) :
    name2first_mass store m nm =
      some (recAt store (listMin l)).mono_mass := by
  simp [name2first_mass, hl]

theorem name2first_composition_eq {store : List ModRecord} {m : Mapper}
    {nm : String} {l : List Nat} (hl : mget m (MKey.str nm) = some l) :
    name2first_composition store m nm =
      some (recAt store (listMin l)).element := by
  simp [name2first_composition, hl]

theorem assignId_fields (t : Nat) (m : UserMod) :
    (assignId t m).name = m.name ∧ (assignId t m).mass = m.mass ∧
    (assignId t m).composition = m.composition := by
  cases hm : m.id <;> simp [assignId, hm]

theorem writeXML_store_get_lt (base : List ModRecord)
    (oldOverlay : List UserMod) (newMod : UserMod) {j : Nat}
    (hj : j < oldOverlay.length) :
    ∃ d, d ∈ oldOverlay ∧ (writeXML base oldOverlay newMod).1[j]? =
      some (overlayRecord (assignId (oldOverlay.length + 1) d)) := by
  refine ⟨oldOverlay[j], List.getElem_mem hj, ?_⟩
  show (((oldOverlay ++ [newMod]).map
      (fun d => overlayRecord (assignId (oldOverlay.length + 1) d)) ++ base) ++
      (oldOverlay ++ [newMod]).map
      (fun d => overlayRecord (assignId (oldOverlay.length + 1) d)))[j]? = _
  have h1 : j < ((oldOverlay ++ [newMod]).map
      (fun d => overlayRecord (assignId (oldOverlay.length + 1) d))).length := by
    simp only [List.length_map, List.length_append, List.length_cons,
      List.length_nil]
    omega
  have h2 : j < (((oldOverlay ++ [newMod]).map
      (fun d => overlayRecord (assignId (oldOverlay.length + 1) d))) ++
      base).length := by
    simp only [List.length_map, List.length_append, List.length_cons,
      List.length_nil]
    omega
  rw [List.getElem?_append, if_pos h2, List.getElem?_append, if_pos h1,
    List.getElem?_map, List.getElem?_append, if_pos hj,
    List.getElem?_eq_getElem hj]
  rfl

theorem writeXML_store_get_new (base : List ModRecord)
    (oldOverlay : List UserMod) (newMod : UserMod) :
    (writeXML base oldOverlay newMod).1[oldOverlay.length]? =
      some (overlayRecord (assignId (oldOverlay.length + 1) newMod)) := by
  show (((oldOverlay ++ [newMod]).map
      (fun d => overlayRecord (assignId (oldOverlay.length + 1) d)) ++ base) ++
      (oldOverlay ++ [newMod]).map
      (fun d => overlayRecord (assignId (oldOverlay.length + 1) d)))[oldOverlay.length]? = _
  have h1 : oldOverlay.length < ((oldOverlay ++ [newMod]).map
      (fun d => overlayRecord (assignId (oldOverlay.length + 1) d))).length := by
    simp only [List.length_map, List.length_append, List.length_cons,
      List.length_nil]
    omega
  have h2 : oldOverlay.length < (((oldOverlay ++ [newMod]).map
      (fun d => overlayRecord (assignId (oldOverlay.length + 1) d))) ++
      base).length := by
    simp only [List.length_map, List.length_append, List.length_cons,
      List.length_nil]
    omega
  rw [List.getElem?_append, if_pos h2, List.getElem?_append, if_pos h1,
    List.getElem?_map,
    show (oldOverlay ++ [newMod])[oldOverlay.length]? = some newMod from
      List.getElem?_concat_length oldOverlay newMod]
  rfl

/-- A previously written overlay entry named `X` with mass 1. -/
def oldOverlayX : List UserMod := [⟨1, "X", [("O", 1)], some "u1"⟩]

/-- A new overlay entry also named `X`, with mass 2. -/
def newModX : UserMod := ⟨2, "X", [("O", 2)], none⟩

/-- C9 counterexample: after writing a second entry named `X` over an
overlay already holding an entry named `X` of mass 1, looking the new
entry up by its name returns the older entry's mass 1, not the written
mass 2 — `writeXML` keeps earlier overlay entries before the new one and
the first-variant lookup picks the lowest position. -/
theorem writeXML_roundtrip_name_collision :
    name2first_mass (writeXML [] oldOverlayX newModX).1
      (writeXML [] oldOverlayX newModX).2 "X" = some 1 ∧
    newModX.mass = 2 ∧ ((1 : Rat) = 2 → False) :=
  ⟨by decide, by decide, by decide⟩

/-- C9 (amended): writing an overlay entry rebuilds the record store and
the index wholesale — the post-write index is a fresh
`_initialize_mapper` build over the post-write store — and provided the
entry's name does not coincide with any key of a previously written
overlay entry and its composition carries no zero counts, looking the
entry up by its name returns exactly the written mass and composition. -/
theorem writeXML_rebuild_roundtrip (base : List ModRecord)
    (oldOverlay : List UserMod) (newMod : UserMod)
    (hname : ∀ d ∈ oldOverlay, MKey.str newMod.name ∉
      recordKeys (overlayRecord (assignId (oldOverlay.length + 1) d)))
    (hz : ∀ p ∈ newMod.composition, p.2 ≠ 0) :
    (writeXML base oldOverlay newMod).2 =
      initialize_mapper (writeXML base oldOverlay newMod).1 ∧
    name2first_mass (writeXML base oldOverlay newMod).1
      (writeXML base oldOverlay newMod).2 newMod.name =
        some newMod.mass ∧
    name2first_composition (writeXML base oldOverlay newMod).1
      (writeXML base oldOverlay newMod).2 newMod.name =
        some newMod.composition := by
  have hnew := writeXML_store_get_new base oldOverlay newMod
  have hrec : recAt (writeXML base oldOverlay newMod).1 oldOverlay.length =
      overlayRecord (assignId (oldOverlay.length + 1) newMod) := by
    rw [recAt, List.getD_eq_getElem?_getD, hnew]
    rfl
  have hkey : MKey.str newMod.name ∈
      recordKeys (overlayRecord (assignId (oldOverlay.length + 1) newMod)) := by
    have hn := (assignId_fields (oldOverlay.length + 1) newMod).1
    simp only [recordKeys, overlayRecord, List.mem_cons]
    right; left
    rw [hn]
  obtain ⟨l, hl, hmem⟩ :=
    lookupMem_init hnew hkey
  have hl2 : mget (writeXML base oldOverlay newMod).2
      (MKey.str newMod.name) = some l := hl
  have hmin_le : listMin l ≤ oldOverlay.length := listMin_le hmem
  obtain ⟨hne, -, -⟩ :=
    sbound_init (writeXML base oldOverlay newMod).1 (MKey.str newMod.name) l hl
  have hminmem := listMin_mem hne
  obtain ⟨hlt, hk⟩ :=
    mget_init_sound (writeXML base oldOverlay newMod).1
      (MKey.str newMod.name) l hl (listMin l) hminmem
  have hmin_eq : listMin l = oldOverlay.length := by
    by_contra hneq
    have hlt' : listMin l < oldOverlay.length := by omega
    obtain ⟨d, hd, hdge⟩ := writeXML_store_get_lt base oldOverlay newMod hlt'
    have hrecd : recAt (writeXML base oldOverlay newMod).1 (listMin l) =
        overlayRecord (assignId (oldOverlay.length + 1) d) := by
      rw [recAt, List.getD_eq_getElem?_getD, hdge]
      rfl
    rw [hrecd] at hk
    exact hname d hd hk
  refine ⟨rfl, ?_, ?_⟩
  · rw [name2first_mass_eq hl2, hmin_eq, hrec]
    simp [overlayRecord, (assignId_fields (oldOverlay.length + 1) newMod).2.1]
  · rw [name2first_composition_eq hl2, hmin_eq, hrec]
    have hcomp : (assignId (oldOverlay.length + 1) newMod).composition =
        newMod.composition := (assignId_fields (oldOverlay.length + 1) newMod).2.2
    simp only [overlayRecord, hcomp, parseElements, Option.some.injEq]
    rw [List.filter_eq_self.mpr]
    intro a ha
    simpa using hz a ha

/-- A previously written overlay entry with a name unrelated to the new
entry. -/
def oldOverlayW : List UserMod := [⟨1, "Zeta", [("O", 1)], some "u1"⟩]

/-- A fresh overlay entry named `Kappa` with mass 5. -/
def newModW : UserMod := ⟨5, "Kappa", [("P", 2)], none⟩

/-- C9 witness: the amended round-trip on a fresh name returns exactly the
written mass and composition. -/
theorem writeXML_rebuild_roundtrip_witness :
    name2first_mass (writeXML testStore oldOverlayW newModW).1
      (writeXML testStore oldOverlayW newModW).2 "Kappa" = some 5 ∧
    name2first_composition (writeXML testStore oldOverlayW newModW).1
      (writeXML testStore oldOverlayW newModW).2 "Kappa" =
        some [("P", 2)] := by
  have h := writeXML_rebuild_roundtrip testStore oldOverlayW newModW
    (by decide) (by decide)
  exact ⟨h.2.1, h.2.2⟩

end UnimodMapper
